import Mathlib

/-!
Verification of the per-meeting transcript buffering engine
(backend/app/services/transcript_buffer.py).

Texts are embedded as lists of characters (Python `str`), timestamps as
integers (Python `int` is unbounded).  The registry `Dict[str,
TranscriptBuffer]` is embedded as a function from meeting ids to optional
buffers, the deque `entries` and list `full_entries` as Lean lists whose
head is the front of the deque.  `asyncio` operations run sequentially
under the per-buffer lock, so each method is embedded as a pure state
transformer; `get_recent_entries` takes the wall-clock reading
`int(time.time() * 1000)` as an explicit argument `now`.
-/

/-- The window constant `BUFFER_WINDOW_MS = 30_000` of the source. -/
def BUFFER_WINDOW_MS : Int := 30000

/-- Whitespace in the sense of Python `str.split()` / `str.strip()`
(ASCII whitespace characters). -/
def isPyWs (c : Char) : Bool :=
  c = ' ' || c = '\t' || c = '\n' || c = '\r' || c = '\x0b' || c = '\x0c'

/-- Splits a character list at every whitespace character, keeping the
(possibly empty) fields between consecutive whitespace characters.
`pyGroups` always returns at least one field. -/
def pyGroups : List Char → List (List Char)
  | [] => [[]]
  | c :: rest =>
    match pyGroups rest with
    | [] => [[]]
    | g :: gs => if isPyWs c then [] :: g :: gs else (c :: g) :: gs

/-- Python `text.strip().split()`: the maximal whitespace-free non-empty
runs of `text`, in order (`str.split()` with no separator drops empty
fields, which also makes the preceding `strip()` a no-op). -/
def pyTokens (l : List Char) : List (List Char) :=
  (pyGroups l).filter (fun t => t ≠ [])

/-- Python `' '.join(tokens)`. -/
def joinSp : List (List Char) → List Char
  | [] => []
  | t :: ts =>
    match ts with
    | [] => t
    | _ :: _ => t ++ ' ' :: joinSp ts

/-- `TranscriptBufferService._normalize_text`: collapse whitespace runs,
trim, and append a terminal `.` unless the text already ends in
`.`, `!` or `?`.  (`cleaned = ' '.join(text.strip().split())`.) -/
def _normalize_text (text : List Char) : List Char :=
  let cleaned := joinSp (pyTokens text)
  if cleaned = [] then []
  else if cleaned.getLast?.any (fun c => c = '.' || c = '!' || c = '?') then cleaned
  else cleaned ++ ['.']

/-- The dataclass `TranscriptEntry` (value view: text and timestamp). -/
structure TranscriptEntry where
  text : List Char
  timestamp : Int
deriving DecidableEq, Repr

/-- The two sequences of a `TranscriptBuffer`: the recent deque `entries`
(head = front) and the unbounded history `full_entries`. -/
structure TranscriptBuffer where
  entries : List TranscriptEntry
  full_entries : List TranscriptEntry
deriving DecidableEq, Repr

/-- The state of a `TranscriptBufferService`: its `_buffers` dictionary. -/
structure ServiceState where
  _buffers : String → Option TranscriptBuffer

/-- A freshly constructed service: `self._buffers = {}`. -/
def init_state : ServiceState := ⟨fun _ => none⟩

/-- `self._buffers[meeting_id] = b` (or `pop` when `b = none`). -/
def setBuf (s : ServiceState) (meeting_id : String) (b : Option TranscriptBuffer) :
    ServiceState :=
  ⟨fun j => if j = meeting_id then b else s._buffers j⟩

/-- `TranscriptBufferService._prune`: pop entries from the front of the
recent deque while the front timestamp is below `current_ts - BUFFER_WINDOW_MS`. -/
def _prune (entries : List TranscriptEntry) (current_ts : Int) : List TranscriptEntry :=
  match entries with
  | [] => []
  | e :: rest =>
    if e.timestamp < current_ts - BUFFER_WINDOW_MS then _prune rest current_ts
    else e :: rest

/-- `TranscriptBufferService._store_transcript`: look up or lazily create
the buffer, normalize, reject empty or (for finals) adjacent-duplicate
text, then prune at the entry's own timestamp and append to both views. -/
def _store_transcript (s : ServiceState) (meeting_id : String) (text : List Char)
    (timestamp : Int) (allow_duplicates : Bool) : ServiceState × Option TranscriptEntry :=
  let buffer : TranscriptBuffer := (s._buffers meeting_id).getD ⟨[], []⟩
  let s1 : ServiceState :=
    match s._buffers meeting_id with
    | some _ => s
    | none => setBuf s meeting_id (some buffer)
  let normalized := _normalize_text text
  if normalized = [] then
    (s1, none)
  else if !allow_duplicates && buffer.entries.getLast?.any
      (fun e => decide (e.text = normalized)) then
    (s1, none)
  else
    let entry : TranscriptEntry := ⟨normalized, timestamp⟩
    let newBuffer : TranscriptBuffer :=
      ⟨_prune buffer.entries entry.timestamp ++ [entry],
       buffer.full_entries ++ [entry]⟩
    (setBuf s1 meeting_id (some newBuffer), some entry)

/-- `add_final_transcript`: store with `allow_duplicates=False`. -/
def add_final_transcript (s : ServiceState) (meeting_id : String) (text : List Char)
    (timestamp : Int) : ServiceState × Option TranscriptEntry :=
  _store_transcript s meeting_id text timestamp false

/-- `add_partial_transcript`: store with `allow_duplicates=True`. -/
def add_partial_transcript (s : ServiceState) (meeting_id : String) (text : List Char)
    (timestamp : Int) : ServiceState × Option TranscriptEntry :=
  _store_transcript s meeting_id text timestamp true

/-- `init_meeting`: create an empty buffer if absent, else no-op. -/
def init_meeting (s : ServiceState) (meeting_id : String) : ServiceState :=
  match s._buffers meeting_id with
  | some _ => s
  | none => setBuf s meeting_id (some ⟨[], []⟩)

/-- `clear_meeting`: pop the buffer for the meeting (the popped buffer's
lists are drained by the source; the value model only needs the removal). -/
def clear_meeting (s : ServiceState) (meeting_id : String) : ServiceState :=
  ⟨fun j => if j = meeting_id then none else s._buffers j⟩

/-- `get_recent_entries`: prune the stored deque at the wall-clock reading
`now`, store the pruned deque back, and return a copy of it. -/
def get_recent_entries (s : ServiceState) (meeting_id : String) (now : Int) :
    ServiceState × List TranscriptEntry :=
  match s._buffers meeting_id with
  | none => (s, [])
  | some b =>
    let pruned := _prune b.entries now
    (setBuf s meeting_id (some ⟨pruned, b.full_entries⟩), pruned)

/-- `get_full_entries`: a copy of the history view (no state change). -/
def get_full_entries (s : ServiceState) (meeting_id : String) : List TranscriptEntry :=
  match s._buffers meeting_id with
  | none => []
  | some b => b.full_entries

/-- The recent deque as currently stored (without the pruning that
`get_recent_entries` performs): used to state invariants. -/
def recentList (s : ServiceState) (meeting_id : String) : List TranscriptEntry :=
  match s._buffers meeting_id with
  | none => []
  | some b => b.entries

/-- One observable operation of the service, for reachability statements. -/
inductive Op where
  | addF (meeting_id : String) (text : List Char) (ts : Int)
  | addP (meeting_id : String) (text : List Char) (ts : Int)
  | clearM (meeting_id : String)
  | initM (meeting_id : String)
  | recentM (meeting_id : String) (now : Int)
  | fullM (meeting_id : String)
deriving DecidableEq, Repr

/-- The state transition of one operation. -/
def step (s : ServiceState) : Op → ServiceState
  | Op.addF id t ts => (add_final_transcript s id t ts).1
  | Op.addP id t ts => (add_partial_transcript s id t ts).1
  | Op.clearM id => clear_meeting s id
  | Op.initM id => init_meeting s id
  | Op.recentM id now => (get_recent_entries s id now).1
  | Op.fullM _ => s

/-- Runs a list of operations from a given state, left to right. -/
def runFrom (s : ServiceState) : List Op → ServiceState
  | [] => s
  | op :: rest => runFrom (step s op) rest

/-- Runs a list of operations from the freshly constructed service. -/
def runOps (ops : List Op) : ServiceState := runFrom init_state ops

/-- No two adjacent characters of the list are both whitespace. -/
def noWsRun : List Char → Bool
  | [] => true
  | [_] => true
  | a :: b :: rest => !(isPyWs a && isPyWs b) && noWsRun (b :: rest)

lemma pyGroups_ne_nil (l : List Char) : pyGroups l ≠ [] := by
  cases l with
  | nil => simp [pyGroups]
  | cons c rest =>
    rw [pyGroups]
    cases h : pyGroups rest with
    | nil => simp
    | cons g gs =>
      by_cases hw : isPyWs c = true <;> simp [hw]

lemma mem_pyGroups_ws (l : List Char) :
    ∀ g ∈ pyGroups l, ∀ c ∈ g, isPyWs c = false := by
  induction l with
  | nil =>
    intro g hg c hc
    simp [pyGroups] at hg
    subst hg
    simp at hc
  | cons a rest ih =>
    intro g hg c hc
    rcases hgs : pyGroups rest with _ | ⟨g0, gs⟩
    · exact absurd hgs (pyGroups_ne_nil rest)
    · rw [pyGroups, hgs] at hg
      have hg' : g ∈ (if isPyWs a = true then [] :: g0 :: gs else (a :: g0) :: gs) := hg
      by_cases hwa : isPyWs a = true
      · rw [if_pos hwa] at hg'
        rcases List.mem_cons.mp hg' with h1 | h1
        · subst h1; simp at hc
        · exact ih g (hgs ▸ h1) c hc
      · rw [if_neg hwa] at hg'
        rcases List.mem_cons.mp hg' with h1 | h1
        · subst h1
          rcases List.mem_cons.mp hc with h2 | h2
          · subst h2; exact eq_false_of_ne_true hwa
          · exact ih g0 (hgs ▸ List.mem_cons_self g0 gs) c h2
        · exact ih g (hgs ▸ List.mem_cons_of_mem g0 h1) c hc

lemma mem_pyTokens_ws (l : List Char) :
    ∀ t ∈ pyTokens l, ∀ c ∈ t, isPyWs c = false := by
  intro t ht
  exact mem_pyGroups_ws l t (List.mem_of_mem_filter ht)

lemma mem_pyTokens_ne_nil (l : List Char) : ∀ t ∈ pyTokens l, t ≠ [] := by
  intro t ht
  have := List.of_mem_filter ht
  simpa using this

lemma noWsRun_cons (a : Char) (l : List Char) (ha : isPyWs a = false)
    (hl : noWsRun l = true) : noWsRun (a :: l) = true := by
  cases l with
  | nil => rfl
  | cons b rest => simp [noWsRun, ha]; simpa using hl

lemma noWsRun_cons_head (a : Char) (l : List Char)
    (h : l.head?.all (fun c => !isPyWs c) = true) (hl : noWsRun l = true) :
    noWsRun (a :: l) = true := by
  cases l with
  | nil => rfl
  | cons b rest =>
    have hb : isPyWs b = false := by simpa using h
    simp [noWsRun, hb]
    simpa using hl

lemma noWsRun_of_all (l : List Char) (h : ∀ c ∈ l, isPyWs c = false) :
    noWsRun l = true := by
  induction l with
  | nil => rfl
  | cons a rest ih =>
    exact noWsRun_cons a rest (h a (List.mem_cons_self a rest))
      (ih fun c hc => h c (List.mem_cons_of_mem a hc))

lemma noWsRun_append_left (l r : List Char) (hl : ∀ c ∈ l, isPyWs c = false)
    (hr : noWsRun r = true) : noWsRun (l ++ r) = true := by
  induction l with
  | nil => simpa using hr
  | cons a rest ih =>
    exact noWsRun_cons a (rest ++ r) (hl a (List.mem_cons_self a rest))
      (ih fun c hc => hl c (List.mem_cons_of_mem a hc))

lemma noWsRun_snoc (l : List Char) (d : Char) (hl : noWsRun l = true)
    (hd : isPyWs d = false) : noWsRun (l ++ [d]) = true := by
  induction l with
  | nil => simp [noWsRun]
  | cons a rest ih =>
    cases rest with
    | nil => simp [noWsRun, hd]
    | cons b rest' =>
      simp only [noWsRun, Bool.and_eq_true] at hl
      have h3 := ih hl.2
      show noWsRun (a :: b :: (rest' ++ [d])) = true
      simp only [noWsRun, Bool.and_eq_true]
      exact ⟨hl.1, h3⟩

lemma joinSp_good (ts : List (List Char)) (hne : ∀ t ∈ ts, t ≠ [])
    (hws : ∀ t ∈ ts, ∀ c ∈ t, isPyWs c = false) :
    noWsRun (joinSp ts) = true ∧
      (joinSp ts).head?.all (fun c => !isPyWs c) = true := by
  induction ts with
  | nil => simp [joinSp, noWsRun]
  | cons t rest ih =>
    cases rest with
    | nil =>
      rcases ht : t with _ | ⟨c, t1⟩
      · exact absurd ht (hne t (List.mem_cons_self t []))
      · constructor
        · rw [joinSp, ← ht]
          exact noWsRun_of_all t (hws t (List.mem_cons_self t []))
        · have hc : isPyWs c = false :=
            hws t (List.mem_cons_self t []) c (ht ▸ List.mem_cons_self c t1)
          simp [joinSp, ht, hc]
    | cons t0 rest' =>
      have ihr := ih
        (fun u hu => hne u (List.mem_cons_of_mem t hu))
        (fun u hu => hws u (List.mem_cons_of_mem t hu))
      have hmid : noWsRun (' ' :: joinSp (t0 :: rest')) = true :=
        noWsRun_cons_head ' ' _ ihr.2 ihr.1
      have hall : ∀ c ∈ t, isPyWs c = false := hws t (List.mem_cons_self t _)
      constructor
      · rw [joinSp]
        exact noWsRun_append_left t _ hall hmid
      · rcases ht : t with _ | ⟨c, t1⟩
        · exact absurd ht (hne t (List.mem_cons_self t _))
        · have hc : isPyWs c = false :=
            hall c (ht ▸ List.mem_cons_self c t1)
          simp [joinSp, ht, hc]

lemma normalize_good (text : List Char) :
    noWsRun (_normalize_text text) = true ∧
      (_normalize_text text).head?.all (fun c => !isPyWs c) = true ∧
      (_normalize_text text = [] ∨
        ∃ c, (_normalize_text text).getLast? = some c ∧
          (c = '.' ∨ c = '!' ∨ c = '?')) := by
  have good := joinSp_good (pyTokens text) (mem_pyTokens_ne_nil text)
    (mem_pyTokens_ws text)
  unfold _normalize_text
  by_cases hemp : joinSp (pyTokens text) = []
  · simp [hemp, noWsRun]
  · rw [if_neg hemp]
    rcases hc : (joinSp (pyTokens text)).getLast? with _ | c
    · rcases List.exists_cons_of_ne_nil hemp with ⟨a, l1, hal⟩
      rw [hal] at hc
      simp at hc
    · simp only [Option.any]
      by_cases hpunct : (c = '.' || c = '!' || c = '?') = true
      · rw [if_pos hpunct]
        refine ⟨good.1, good.2, Or.inr ⟨c, hc, ?_⟩⟩
        simpa [or_assoc] using hpunct
      · rw [if_neg hpunct]
        refine ⟨noWsRun_snoc _ _ good.1 (by decide), ?_, ?_⟩
        · rcases List.exists_cons_of_ne_nil hemp with ⟨a, l1, hal⟩
          rw [hal]
          have h5 := good.2
          rw [hal] at h5
          simpa using h5
        · exact Or.inr ⟨'.', List.getLast?_concat _, Or.inl rfl⟩

/-- The buffer `_store_transcript` works on: the existing one, or the
fresh `TranscriptBuffer()` it lazily creates. -/
def pyBuf (s : ServiceState) (meeting_id : String) : TranscriptBuffer :=
  (s._buffers meeting_id).getD ⟨[], []⟩

/-- The registry state right after the lazy-creation step of
`_store_transcript` (the fresh buffer is inserted even when the fragment
is later rejected). -/
def pyS1 (s : ServiceState) (meeting_id : String) : ServiceState :=
  match s._buffers meeting_id with
  | some _ => s
  | none => setBuf s meeting_id (some (pyBuf s meeting_id))

/-- The rejection condition of `_store_transcript`: empty normalized text,
or (for finals) equality with the last entry of the recent deque. -/
def storeRejects (s : ServiceState) (meeting_id : String) (t : List Char)
    (dup : Bool) : Prop :=
  _normalize_text t = [] ∨
    (dup = false ∧ (pyBuf s meeting_id).entries.getLast?.any
      (fun e => decide (e.text = _normalize_text t)) = true)

lemma setBuf_buffers (s : ServiceState) (meeting_id : String)
    (b : Option TranscriptBuffer) (j : String) :
    (setBuf s meeting_id b)._buffers j = if j = meeting_id then b else s._buffers j := rfl

lemma pyS1_buffers (s : ServiceState) (meeting_id j : String) :
    (pyS1 s meeting_id)._buffers j =
      if j = meeting_id then some (pyBuf s meeting_id) else s._buffers j := by
  rcases h : s._buffers meeting_id with _ | b
  · simp [pyS1, h, setBuf_buffers]
  · simp only [pyS1, h]
    by_cases hj : j = meeting_id
    · subst hj; simp [h, pyBuf]
    · simp [hj]

lemma recentList_pyBuf (s : ServiceState) (meeting_id : String) :
    recentList s meeting_id = (pyBuf s meeting_id).entries := by
  rcases h : s._buffers meeting_id with _ | b <;> simp [recentList, pyBuf, h]

lemma get_full_pyBuf (s : ServiceState) (meeting_id : String) :
    get_full_entries s meeting_id = (pyBuf s meeting_id).full_entries := by
  rcases h : s._buffers meeting_id with _ | b <;> simp [get_full_entries, pyBuf, h]

lemma store_rejects_eq (s : ServiceState) (meeting_id : String) (t : List Char)
    (ts : Int) (dup : Bool) (h : storeRejects s meeting_id t dup) :
    _store_transcript s meeting_id t ts dup = (pyS1 s meeting_id, none) := by
  by_cases hn : _normalize_text t = []
  · simp [_store_transcript, hn, pyS1, pyBuf]
  · rcases h with h | ⟨hd, hany⟩
    · exact absurd h hn
    · subst hd
      simp only [pyBuf] at hany
      simp [_store_transcript, hn, hany, pyS1, pyBuf]

lemma store_accepts_eq (s : ServiceState) (meeting_id : String) (t : List Char)
    (ts : Int) (dup : Bool) (h : ¬ storeRejects s meeting_id t dup) :
    _store_transcript s meeting_id t ts dup =
      (setBuf (pyS1 s meeting_id) meeting_id
        (some ⟨_prune (pyBuf s meeting_id).entries ts ++ [⟨_normalize_text t, ts⟩],
               (pyBuf s meeting_id).full_entries ++ [⟨_normalize_text t, ts⟩]⟩),
       some ⟨_normalize_text t, ts⟩) := by
  rw [storeRejects] at h
  push_neg at h
  have hn : _normalize_text t ≠ [] := fun he => h.1 he
  have hcond : (!dup && (pyBuf s meeting_id).entries.getLast?.any
      (fun e => decide (e.text = _normalize_text t))) = false := by
    cases dup with
    | true => rfl
    | false =>
      have := h.2 rfl
      simp only [Bool.not_false, Bool.true_and]
      exact Bool.eq_false_iff.mpr this
  simp only [pyBuf] at hcond
  simp [_store_transcript, hn, hcond, pyS1, pyBuf]

lemma get_recent_snd (s : ServiceState) (meeting_id : String) (now : Int) :
    (get_recent_entries s meeting_id now).2 = _prune (recentList s meeting_id) now := by
  rcases h : s._buffers meeting_id with _ | b <;>
    simp [get_recent_entries, recentList, h, _prune]

lemma views_pyS1 (s : ServiceState) (meeting_id : String) (now : Int) :
    (get_recent_entries (pyS1 s meeting_id) meeting_id now).2
      = (get_recent_entries s meeting_id now).2 ∧
    get_full_entries (pyS1 s meeting_id) meeting_id
      = get_full_entries s meeting_id := by
  rcases h : s._buffers meeting_id with _ | b
  · have hl : (pyS1 s meeting_id)._buffers meeting_id = some ⟨[], []⟩ := by
      rw [pyS1_buffers]
      simp [pyBuf, h]
    constructor
    · simp [get_recent_entries, hl, h, _prune]
    · simp [get_full_entries, hl, h]
  · have : pyS1 s meeting_id = s := by simp [pyS1, h]
    rw [this]
    exact ⟨rfl, rfl⟩

/-- C5: normalization collapses runs of whitespace to single spaces, trims
leading and trailing whitespace, and appends a terminal full stop when the
result is non-empty and does not already end in one of the characters
full stop, exclamation mark or question mark; in particular "hello world"
is stored as "hello world.", "Already done!" unchanged, and "a   b\tc" as
"a b c.". -/
theorem C5_normalization :
    (_normalize_text "hello world".toList = "hello world.".toList ∧
     _normalize_text "Already done!".toList = "Already done!".toList ∧
     _normalize_text "a   b\tc".toList = "a b c.".toList ∧
     _normalize_text "  hi  ".toList = "hi.".toList ∧
     _normalize_text "done?".toList = "done?".toList) ∧
    (∀ text : List Char,
      noWsRun (_normalize_text text) = true ∧
      (_normalize_text text).head?.all (fun c => !isPyWs c) = true ∧
      (_normalize_text text = [] ∨
        ∃ c, (_normalize_text text).getLast? = some c ∧
          (c = '.' ∨ c = '!' ∨ c = '?'))) :=
  ⟨by decide, normalize_good⟩

/-- C6: for every meeting and every input text that normalizes to the
empty string, both `add_final_transcript` and `add_partial_transcript`
produce no entry (returned as `none`, not an error) and leave the
meeting's recent and history views unchanged. -/
theorem C6_empty_input (s : ServiceState) (meeting_id : String) (text : List Char)
    (ts now : Int) (h : _normalize_text text = []) :
    (add_final_transcript s meeting_id text ts).2 = none ∧
    (add_partial_transcript s meeting_id text ts).2 = none ∧
    (get_recent_entries (add_final_transcript s meeting_id text ts).1 meeting_id now).2
      = (get_recent_entries s meeting_id now).2 ∧
    get_full_entries (add_final_transcript s meeting_id text ts).1 meeting_id
      = get_full_entries s meeting_id ∧
    (get_recent_entries (add_partial_transcript s meeting_id text ts).1 meeting_id now).2
      = (get_recent_entries s meeting_id now).2 ∧
    get_full_entries (add_partial_transcript s meeting_id text ts).1 meeting_id
      = get_full_entries s meeting_id := by
  have hf := store_rejects_eq s meeting_id text ts false (Or.inl h)
  have hp := store_rejects_eq s meeting_id text ts true (Or.inl h)
  rw [add_final_transcript, add_partial_transcript, hf, hp]
  have hv := views_pyS1 s meeting_id now
  exact ⟨rfl, rfl, hv.1, hv.2, hv.1, hv.2⟩

/-- Witness for C6 at a concrete input: the text " " normalizes to the
empty string and is rejected by both ingestion kinds without touching the
views of meeting "m". -/
theorem C6_empty_input_witness :
    _normalize_text " ".toList = [] ∧
    ((add_final_transcript init_state "m" " ".toList 0).2 = none ∧
     (add_partial_transcript init_state "m" " ".toList 0).2 = none ∧
     (get_recent_entries (add_final_transcript init_state "m" " ".toList 0).1 "m" 5).2
       = (get_recent_entries init_state "m" 5).2 ∧
     get_full_entries (add_final_transcript init_state "m" " ".toList 0).1 "m"
       = get_full_entries init_state "m" ∧
     (get_recent_entries (add_partial_transcript init_state "m" " ".toList 0).1 "m" 5).2
       = (get_recent_entries init_state "m" 5).2 ∧
     get_full_entries (add_partial_transcript init_state "m" " ".toList 0).1 "m"
       = get_full_entries init_state "m") :=
  ⟨by decide, C6_empty_input init_state "m" " ".toList 0 5 (by decide)⟩

lemma prune_cons (a : TranscriptEntry) (rest : List TranscriptEntry) (t : Int) :
    _prune (a :: rest) t =
      if a.timestamp < t - BUFFER_WINDOW_MS then _prune rest t else a :: rest := rfl

lemma prune_decomp (l : List TranscriptEntry) (t : Int) :
    ∃ pre, l = pre ++ _prune l t ∧
      (∀ e ∈ pre, e.timestamp < t - BUFFER_WINDOW_MS) ∧
      (∀ e, (_prune l t).head? = some e → ¬(e.timestamp < t - BUFFER_WINDOW_MS)) := by
  induction l with
  | nil => exact ⟨[], rfl, by simp, by simp [_prune]⟩
  | cons a rest ih =>
    by_cases h : a.timestamp < t - BUFFER_WINDOW_MS
    · rcases ih with ⟨pre, hdec, hall, hhead⟩
      refine ⟨a :: pre, ?_, ?_, ?_⟩
      · rw [prune_cons, if_pos h, List.cons_append, ← hdec]
      · intro e he
        rcases List.mem_cons.mp he with he | he
        · subst he; exact h
        · exact hall e he
      · intro e he
        rw [prune_cons, if_pos h] at he
        exact hhead e he
    · refine ⟨[], ?_, by simp, ?_⟩
      · rw [prune_cons, if_neg h, List.nil_append]
      · intro e he
        rw [prune_cons, if_neg h] at he
        simp only [List.head?_cons, Option.some.injEq] at he
        subst he
        exact h

lemma pyBuf_setBuf_same (s : ServiceState) (meeting_id : String) (b : TranscriptBuffer) :
    pyBuf (setBuf s meeting_id (some b)) meeting_id = b := by
  simp [pyBuf, setBuf]

lemma store_accept_views (s : ServiceState) (meeting_id : String) (t : List Char)
    (ts : Int) (dup : Bool) (e : TranscriptEntry)
    (h : (_store_transcript s meeting_id t ts dup).2 = some e) :
    recentList (_store_transcript s meeting_id t ts dup).1 meeting_id
      = _prune (recentList s meeting_id) ts ++ [e] ∧
    get_full_entries (_store_transcript s meeting_id t ts dup).1 meeting_id
      = get_full_entries s meeting_id ++ [e] ∧
    e = ⟨_normalize_text t, ts⟩ := by
  by_cases hr : storeRejects s meeting_id t dup
  · rw [store_rejects_eq _ _ _ ts _ hr] at h
    exact absurd h (by simp)
  · rw [store_accepts_eq _ _ _ ts _ hr] at h ⊢
    have he : e = ⟨_normalize_text t, ts⟩ := by
      simpa using h.symm
    subst he
    refine ⟨?_, ?_, rfl⟩
    · rw [recentList_pyBuf, recentList_pyBuf, pyBuf_setBuf_same]
    · rw [get_full_pyBuf, get_full_pyBuf, pyBuf_setBuf_same]

/-- C3: pruning at reference timestamp t removes exactly the maximal
front prefix of the recent view with timestamp strictly below t - 30000,
leaves the rest of recent and the whole history view unchanged, and
during ingestion runs before insertion using the incoming entry's own
timestamp; ingesting at t=0, t=10000, t=35000 leaves exactly the last two
entries in recent while history keeps all three. -/
theorem C3_window_pruning :
    (∀ (l : List TranscriptEntry) (t : Int), ∃ pre, l = pre ++ _prune l t ∧
      (∀ e ∈ pre, e.timestamp < t - BUFFER_WINDOW_MS) ∧
      (∀ e, (_prune l t).head? = some e → ¬(e.timestamp < t - BUFFER_WINDOW_MS))) ∧
    (∀ (s : ServiceState) (meeting_id : String) (now : Int),
      get_full_entries ((get_recent_entries s meeting_id now).1) meeting_id
        = get_full_entries s meeting_id) ∧
    (∀ (s : ServiceState) (meeting_id : String) (t : List Char) (ts : Int)
      (dup : Bool) (e : TranscriptEntry),
      (_store_transcript s meeting_id t ts dup).2 = some e →
        recentList (_store_transcript s meeting_id t ts dup).1 meeting_id
          = _prune (recentList s meeting_id) ts ++ [e] ∧
        get_full_entries (_store_transcript s meeting_id t ts dup).1 meeting_id
          = get_full_entries s meeting_id ++ [e]) ∧
    (recentList (add_final_transcript (add_final_transcript (add_final_transcript
        init_state "m" "x".toList 0).1 "m" "y".toList 10000).1 "m" "z".toList 35000).1 "m"
      = [⟨"y.".toList, 10000⟩, ⟨"z.".toList, 35000⟩] ∧
     get_full_entries (add_final_transcript (add_final_transcript (add_final_transcript
        init_state "m" "x".toList 0).1 "m" "y".toList 10000).1 "m" "z".toList 35000).1 "m"
      = [⟨"x.".toList, 0⟩, ⟨"y.".toList, 10000⟩, ⟨"z.".toList, 35000⟩] ∧
     (get_recent_entries (add_final_transcript (add_final_transcript (add_final_transcript
        init_state "m" "x".toList 0).1 "m" "y".toList 10000).1 "m" "z".toList 35000).1
        "m" 35000).2
      = [⟨"y.".toList, 10000⟩, ⟨"z.".toList, 35000⟩]) := by
  refine ⟨prune_decomp, ?_, ?_, by decide⟩
  · intro s meeting_id now
    rcases h : s._buffers meeting_id with _ | b
    · simp [get_recent_entries, h]
    · simp [get_recent_entries, h, get_full_entries, setBuf_buffers]
  · intro s meeting_id t ts dup e h
    exact ⟨(store_accept_views s meeting_id t ts dup e h).1,
           (store_accept_views s meeting_id t ts dup e h).2.1⟩

/-- Witness for C3 at a concrete ingestion: storing "z" at t=35000 into
the state holding entries at t=0 and t=10000 prunes the recent view with
the entry's own timestamp before appending. -/
theorem C3_window_pruning_witness :
    (_store_transcript (add_final_transcript (add_final_transcript
        init_state "m" "x".toList 0).1 "m" "y".toList 10000).1
        "m" "z".toList 35000 false).2 = some ⟨"z.".toList, 35000⟩ ∧
    (recentList (_store_transcript (add_final_transcript (add_final_transcript
        init_state "m" "x".toList 0).1 "m" "y".toList 10000).1
        "m" "z".toList 35000 false).1 "m"
      = _prune (recentList (add_final_transcript (add_final_transcript
        init_state "m" "x".toList 0).1 "m" "y".toList 10000).1 "m") 35000
        ++ [⟨"z.".toList, 35000⟩] ∧
     get_full_entries (_store_transcript (add_final_transcript (add_final_transcript
        init_state "m" "x".toList 0).1 "m" "y".toList 10000).1
        "m" "z".toList 35000 false).1 "m"
      = get_full_entries (add_final_transcript (add_final_transcript
        init_state "m" "x".toList 0).1 "m" "y".toList 10000).1 "m"
        ++ [⟨"z.".toList, 35000⟩]) :=
  ⟨by decide, C3_window_pruning.2.2.1 (add_final_transcript (add_final_transcript
      init_state "m" "x".toList 0).1 "m" "y".toList 10000).1
      "m" "z".toList 35000 false ⟨"z.".toList, 35000⟩ (by decide)⟩

/-- C10: the duplicate check of a final ingestion reads the recent view's
last entry before pruning runs, so a final fragment matching that entry is
rejected even when the entry is older than the incoming timestamp minus
the 30000 ms window, i.e. even when this very call's prune would have
evicted it; the state is left unchanged. -/
theorem C10_dedup_before_prune (s : ServiceState) (meeting_id : String)
    (t : List Char) (ts : Int) (e : TranscriptEntry)
    (hlast : (recentList s meeting_id).getLast? = some e)
    (htext : e.text = _normalize_text t)
    (_hstale : e.timestamp < ts - BUFFER_WINDOW_MS) :
    (add_final_transcript s meeting_id t ts).2 = none ∧
    (add_final_transcript s meeting_id t ts).1 = s := by
  have hrej : storeRejects s meeting_id t false := by
    refine Or.inr ⟨rfl, ?_⟩
    rw [recentList_pyBuf] at hlast
    rw [hlast]
    simpa using htext
  have hsome : s._buffers meeting_id ≠ none := by
    intro hnone
    rw [recentList_pyBuf] at hlast
    simp [pyBuf, hnone] at hlast
  have hS1 : pyS1 s meeting_id = s := by
    rcases hb : s._buffers meeting_id with _ | b
    · exact absurd hb hsome
    · simp [pyS1, hb]
  rw [add_final_transcript, store_rejects_eq s meeting_id t ts false hrej, hS1]
  exact ⟨rfl, rfl⟩

/-- Witness for C10: after storing "hi" at t=0, a final "hi" at t=40000 is
rejected although the stored entry lies outside the 30000 ms window of the
incoming timestamp. -/
theorem C10_dedup_before_prune_witness :
    (recentList (add_final_transcript init_state "m" "hi".toList 0).1 "m").getLast?
      = some ⟨"hi.".toList, 0⟩ ∧
    (⟨"hi.".toList, 0⟩ : TranscriptEntry).text = _normalize_text "hi".toList ∧
    (⟨"hi.".toList, 0⟩ : TranscriptEntry).timestamp < 40000 - BUFFER_WINDOW_MS ∧
    (add_final_transcript (add_final_transcript init_state "m" "hi".toList 0).1
      "m" "hi".toList 40000).2 = none ∧
    (add_final_transcript (add_final_transcript init_state "m" "hi".toList 0).1
      "m" "hi".toList 40000).1 = (add_final_transcript init_state "m" "hi".toList 0).1 :=
  ⟨by decide, by decide, by decide,
   (C10_dedup_before_prune (add_final_transcript init_state "m" "hi".toList 0).1
     "m" "hi".toList 40000 ⟨"hi.".toList, 0⟩ (by decide) (by decide) (by decide)).1,
   (C10_dedup_before_prune (add_final_transcript init_state "m" "hi".toList 0).1
     "m" "hi".toList 40000 ⟨"hi.".toList, 0⟩ (by decide) (by decide) (by decide)).2⟩

lemma store_buffers_ne (s : ServiceState) (A : String) (t : List Char) (ts : Int)
    (dup : Bool) (j : String) (hj : j ≠ A) :
    ((_store_transcript s A t ts dup).1)._buffers j = s._buffers j := by
  by_cases h : storeRejects s A t dup
  · rw [store_rejects_eq _ _ _ ts _ h]
    rw [pyS1_buffers]
    simp [hj]
  · rw [store_accepts_eq _ _ _ ts _ h]
    rw [setBuf_buffers, pyS1_buffers]
    simp [hj]

lemma recent_state_buffers (s : ServiceState) (A : String) (now : Int) (j : String)
    (hj : j ≠ A) :
    (((get_recent_entries s A now).1))._buffers j = s._buffers j := by
  rcases h : s._buffers A with _ | b
  · simp [get_recent_entries, h]
  · simp [get_recent_entries, h, setBuf_buffers, hj]

lemma get_recent_snd_congr (s s2 : ServiceState) (meeting_id : String) (now : Int)
    (h : s2._buffers meeting_id = s._buffers meeting_id) :
    (get_recent_entries s2 meeting_id now).2 = (get_recent_entries s meeting_id now).2 := by
  rw [get_recent_snd, get_recent_snd]
  unfold recentList
  rw [h]

lemma get_full_congr (s s2 : ServiceState) (meeting_id : String)
    (h : s2._buffers meeting_id = s._buffers meeting_id) :
    get_full_entries s2 meeting_id = get_full_entries s meeting_id := by
  unfold get_full_entries
  rw [h]

/-- C9: meetings are isolated: ingestion into, clearing, initializing or
retrieving meeting A leaves meeting B's registry slot, recent view and
history view unchanged, for every distinct pair of meeting ids. -/
theorem C9_isolation (s : ServiceState) (A B : String) (hAB : A ≠ B) :
    (∀ (t : List Char) (ts : Int) (dup : Bool),
      ((_store_transcript s A t ts dup).1)._buffers B = s._buffers B) ∧
    ((clear_meeting s A)._buffers B = s._buffers B) ∧
    ((init_meeting s A)._buffers B = s._buffers B) ∧
    (∀ now : Int, (((get_recent_entries s A now).1))._buffers B = s._buffers B) ∧
    (∀ (t : List Char) (ts : Int) (dup : Bool) (now : Int),
      (get_recent_entries ((_store_transcript s A t ts dup).1) B now).2
        = (get_recent_entries s B now).2 ∧
      get_full_entries ((_store_transcript s A t ts dup).1) B
        = get_full_entries s B) := by
  have hBA : B ≠ A := fun h => hAB h.symm
  refine ⟨fun t ts dup => store_buffers_ne s A t ts dup B hBA, ?_, ?_,
    fun now => recent_state_buffers s A now B hBA, fun t ts dup now => ?_⟩
  · simp [clear_meeting, hBA]
  · rcases h : s._buffers A with _ | b
    · simp [init_meeting, h, setBuf_buffers, hBA]
    · simp [init_meeting, h]
  · have hb := store_buffers_ne s A t ts dup B hBA
    exact ⟨get_recent_snd_congr _ _ B now hb, get_full_congr _ _ B hb⟩

/-- Witness for C9 at concrete distinct meetings "a" and "b": operations
on "a" leave the slot and views of "b" unchanged. -/
theorem C9_isolation_witness :
    ("a" : String) ≠ "b" ∧
    (∀ (t : List Char) (ts : Int) (dup : Bool),
      ((_store_transcript init_state "a" t ts dup).1)._buffers "b"
        = init_state._buffers "b") ∧
    ((clear_meeting init_state "a")._buffers "b" = init_state._buffers "b") ∧
    ((init_meeting init_state "a")._buffers "b" = init_state._buffers "b") ∧
    (∀ now : Int, (((get_recent_entries init_state "a" now).1))._buffers "b"
      = init_state._buffers "b") ∧
    (∀ (t : List Char) (ts : Int) (dup : Bool) (now : Int),
      (get_recent_entries ((_store_transcript init_state "a" t ts dup).1) "b" now).2
        = (get_recent_entries init_state "b" now).2 ∧
      get_full_entries ((_store_transcript init_state "a" t ts dup).1) "b"
        = get_full_entries init_state "b") :=
  ⟨by decide, C9_isolation init_state "a" "b" (by decide)⟩

/-- C8: clearing a meeting removes its buffer (empty retrievals
afterwards, without error), is a no-op on an unknown id, and a subsequent
ingest for the same id starts a fresh buffer whose history holds only the
new entry. -/
theorem C8_clear (s : ServiceState) (meeting_id : String) (now : Int) :
    (get_recent_entries (clear_meeting s meeting_id) meeting_id now).2 = [] ∧
    get_full_entries (clear_meeting s meeting_id) meeting_id = [] ∧
    (s._buffers meeting_id = none → clear_meeting s meeting_id = s) ∧
    (∀ (t : List Char) (ts : Int) (dup : Bool), _normalize_text t ≠ [] →
      (_store_transcript (clear_meeting s meeting_id) meeting_id t ts dup).2
        = some ⟨_normalize_text t, ts⟩ ∧
      get_full_entries
          (_store_transcript (clear_meeting s meeting_id) meeting_id t ts dup).1 meeting_id
        = [⟨_normalize_text t, ts⟩] ∧
      recentList
          (_store_transcript (clear_meeting s meeting_id) meeting_id t ts dup).1 meeting_id
        = [⟨_normalize_text t, ts⟩]) := by
  have hclr : (clear_meeting s meeting_id)._buffers meeting_id = none := by
    simp [clear_meeting]
  refine ⟨?_, ?_, ?_, ?_⟩
  · simp [get_recent_entries, hclr]
  · simp [get_full_entries, hclr]
  · intro h
    cases s with
    | mk f =>
      apply congrArg ServiceState.mk
      funext j
      by_cases hj : j = meeting_id
      · subst hj
        simpa [clear_meeting] using h.symm
      · simp [clear_meeting, hj]
  · intro t ts dup hn
    have hb : pyBuf (clear_meeting s meeting_id) meeting_id = ⟨[], []⟩ := by
      simp [pyBuf, hclr]
    have hrej : ¬ storeRejects (clear_meeting s meeting_id) meeting_id t dup := by
      rw [storeRejects, hb]
      simp [hn]
    rw [store_accepts_eq _ _ _ ts _ hrej, hb]
    refine ⟨rfl, ?_, ?_⟩
    · rw [get_full_pyBuf, pyBuf_setBuf_same]
      simp [_prune]
    · rw [recentList_pyBuf, pyBuf_setBuf_same]
      simp [_prune]

/-- Witness for C8: clear a meeting that holds one entry, observe empty
retrievals, and re-ingest "new" to obtain a singleton history. -/
theorem C8_clear_witness :
    (get_recent_entries (clear_meeting
      (add_final_transcript init_state "m" "old".toList 0).1 "m") "m" 99).2 = [] ∧
    get_full_entries (clear_meeting
      (add_final_transcript init_state "m" "old".toList 0).1 "m") "m" = [] ∧
    _normalize_text "new".toList ≠ [] ∧
    ((_store_transcript (clear_meeting
        (add_final_transcript init_state "m" "old".toList 0).1 "m")
        "m" "new".toList 50 false).2 = some ⟨_normalize_text "new".toList, 50⟩ ∧
     get_full_entries (_store_transcript (clear_meeting
        (add_final_transcript init_state "m" "old".toList 0).1 "m")
        "m" "new".toList 50 false).1 "m" = [⟨_normalize_text "new".toList, 50⟩] ∧
     recentList (_store_transcript (clear_meeting
        (add_final_transcript init_state "m" "old".toList 0).1 "m")
        "m" "new".toList 50 false).1 "m" = [⟨_normalize_text "new".toList, 50⟩]) :=
  ⟨(C8_clear (add_final_transcript init_state "m" "old".toList 0).1 "m" 99).1,
   (C8_clear (add_final_transcript init_state "m" "old".toList 0).1 "m" 99).2.1,
   by decide,
   (C8_clear (add_final_transcript init_state "m" "old".toList 0).1 "m" 99).2.2.2
     "new".toList 50 false (by decide)⟩

lemma rejects_final_iff (s : ServiceState) (meeting_id : String) (t : List Char) :
    storeRejects s meeting_id t false ↔
      (_normalize_text t = [] ∨
        ∃ e, (recentList s meeting_id).getLast? = some e ∧
          e.text = _normalize_text t) := by
  rw [storeRejects, recentList_pyBuf]
  constructor
  · rintro (h | ⟨-, hany⟩)
    · exact Or.inl h
    · rcases hg : (pyBuf s meeting_id).entries.getLast? with _ | e
      · rw [hg] at hany
        simp [Option.any] at hany
      · rw [hg] at hany
        simp only [Option.any] at hany
        exact Or.inr ⟨e, rfl, by simpa using hany⟩
  · rintro (h | ⟨e, hg, he⟩)
    · exact Or.inl h
    · refine Or.inr ⟨rfl, ?_⟩
      rw [hg]
      simpa using he

lemma rejects_true_iff (s : ServiceState) (meeting_id : String) (t : List Char) :
    storeRejects s meeting_id t true ↔ _normalize_text t = [] := by
  rw [storeRejects]
  simp

/-- C4 counterexample: at the input text " " (which normalizes to the
empty string) a final ingestion produces no entry although the recent
view is empty, and two identical partial ingestions in a row produce zero
entries rather than two. -/
theorem C4_counterexample :
    recentList init_state "m" = [] ∧
    (add_final_transcript init_state "m" " ".toList 0).2 = none ∧
    (add_partial_transcript init_state "m" " ".toList 0).2 = none ∧
    (add_partial_transcript (add_partial_transcript init_state "m" " ".toList 0).1
      "m" " ".toList 1).2 = none ∧
    get_full_entries (add_partial_transcript (add_partial_transcript init_state
      "m" " ".toList 0).1 "m" " ".toList 1).1 "m" = [] := by decide

/-- C4 amended: a final ingestion produces no entry exactly when the
normalized text is empty or the recent view is non-empty with its last
entry's text equal to the normalized text; a partial ingestion produces
no entry exactly when the normalized text is empty, and ingesting the
identical partial text with non-empty normalization twice in a row
produces two entries. -/
theorem C4_amended :
    (∀ (s : ServiceState) (meeting_id : String) (t : List Char) (ts : Int),
      (add_final_transcript s meeting_id t ts).2 = none ↔
        (_normalize_text t = [] ∨
          ∃ e, (recentList s meeting_id).getLast? = some e ∧
            e.text = _normalize_text t)) ∧
    (∀ (s : ServiceState) (meeting_id : String) (t : List Char) (ts : Int),
      (add_partial_transcript s meeting_id t ts).2 = none ↔
        _normalize_text t = []) ∧
    (∀ (s : ServiceState) (meeting_id : String) (t : List Char) (ts1 ts2 : Int),
      _normalize_text t ≠ [] →
      ∃ e1 e2,
        (add_partial_transcript s meeting_id t ts1).2 = some e1 ∧
        (add_partial_transcript (add_partial_transcript s meeting_id t ts1).1
          meeting_id t ts2).2 = some e2 ∧
        get_full_entries (add_partial_transcript (add_partial_transcript
          s meeting_id t ts1).1 meeting_id t ts2).1 meeting_id
          = get_full_entries s meeting_id ++ [e1, e2]) := by
  refine ⟨?_, ?_, ?_⟩
  · intro s meeting_id t ts
    constructor
    · intro h
      by_cases hr : storeRejects s meeting_id t false
      · exact (rejects_final_iff s meeting_id t).mp hr
      · rw [add_final_transcript, store_accepts_eq _ _ _ ts _ hr] at h
        simp at h
    · intro h
      rw [add_final_transcript,
        store_rejects_eq _ _ _ ts _ ((rejects_final_iff s meeting_id t).mpr h)]
  · intro s meeting_id t ts
    constructor
    · intro h
      by_cases hr : storeRejects s meeting_id t true
      · exact (rejects_true_iff s meeting_id t).mp hr
      · rw [add_partial_transcript, store_accepts_eq _ _ _ ts _ hr] at h
        simp at h
    · intro h
      rw [add_partial_transcript,
        store_rejects_eq _ _ _ ts _ ((rejects_true_iff s meeting_id t).mpr h)]
  · intro s meeting_id t ts1 ts2 hn
    have h1 : ¬ storeRejects s meeting_id t true :=
      fun hr => hn ((rejects_true_iff s meeting_id t).mp hr)
    have r1 : (add_partial_transcript s meeting_id t ts1).2
        = some ⟨_normalize_text t, ts1⟩ := by
      rw [add_partial_transcript, store_accepts_eq _ _ _ ts1 _ h1]
    have h2 : ¬ storeRejects (add_partial_transcript s meeting_id t ts1).1
        meeting_id t true :=
      fun hr => hn ((rejects_true_iff _ meeting_id t).mp hr)
    have r2 : (add_partial_transcript (add_partial_transcript s meeting_id t ts1).1
        meeting_id t ts2).2 = some ⟨_normalize_text t, ts2⟩ := by
      rw [add_partial_transcript, store_accepts_eq _ _ _ ts2 _ h2]
    have hv1 := store_accept_views s meeting_id t ts1 true _ r1
    have hv2 := store_accept_views (add_partial_transcript s meeting_id t ts1).1
      meeting_id t ts2 true _ r2
    refine ⟨⟨_normalize_text t, ts1⟩, ⟨_normalize_text t, ts2⟩, r1, r2, ?_⟩
    simp only [add_partial_transcript] at hv1 hv2 ⊢
    rw [hv2.2.1, hv1.2.1, List.append_assoc]
    rfl

/-- Witness for C4 amended: two identical partial ingestions of "hey"
produce two entries appended to the history of meeting "m". -/
theorem C4_amended_witness :
    _normalize_text "hey".toList ≠ [] ∧
    (∃ e1 e2,
      (add_partial_transcript init_state "m" "hey".toList 1).2 = some e1 ∧
      (add_partial_transcript (add_partial_transcript init_state "m" "hey".toList 1).1
        "m" "hey".toList 2).2 = some e2 ∧
      get_full_entries (add_partial_transcript (add_partial_transcript
        init_state "m" "hey".toList 1).1 "m" "hey".toList 2).1 "m"
        = get_full_entries init_state "m" ++ [e1, e2]) :=
  ⟨by decide, C4_amended.2.2 init_state "m" "hey".toList 1 2 (by decide)⟩

/-- C2 counterexample: a retrieval with wall-clock reading 100000 prunes
the recent view empty, after which a final fragment whose normalized text
equals the immediately preceding committed entry's text ("a." at t=0) is
accepted, committing two consecutive final entries of the same pair. -/
theorem C2_counterexample :
    get_full_entries ((get_recent_entries (add_final_transcript init_state
      "m" "a".toList 0).1 "m" 100000).1) "m" = [⟨"a.".toList, 0⟩] ∧
    (add_final_transcript ((get_recent_entries (add_final_transcript init_state
      "m" "a".toList 0).1 "m" 100000).1) "m" "a".toList 100).2
      = some ⟨"a.".toList, 100⟩ ∧
    get_full_entries (add_final_transcript ((get_recent_entries
      (add_final_transcript init_state "m" "a".toList 0).1 "m" 100000).1)
      "m" "a".toList 100).1 "m" = [⟨"a.".toList, 0⟩, ⟨"a.".toList, 100⟩] := by decide

/-- C2 amended: adjacency dedup for finals holds exactly while the
matching entry is still the last element of the recent view: a final
fragment equal to the recent view's last entry is rejected, a final
fragment arriving at an empty recent view (with non-empty normalization)
is accepted, and retrieval prunes the stored recent view with the
wall-clock reading, which can empty it and thereby admit a consecutive
equal final. -/
theorem C2_amended :
    (∀ (s : ServiceState) (meeting_id : String) (t : List Char) (ts : Int)
      (e : TranscriptEntry),
      (recentList s meeting_id).getLast? = some e → e.text = _normalize_text t →
      (add_final_transcript s meeting_id t ts).2 = none) ∧
    (∀ (s : ServiceState) (meeting_id : String) (t : List Char) (ts : Int),
      recentList s meeting_id = [] → _normalize_text t ≠ [] →
      (add_final_transcript s meeting_id t ts).2 = some ⟨_normalize_text t, ts⟩) ∧
    (∀ (s : ServiceState) (meeting_id : String) (now : Int),
      recentList ((get_recent_entries s meeting_id now).1) meeting_id
        = _prune (recentList s meeting_id) now) := by
  refine ⟨?_, ?_, ?_⟩
  · intro s meeting_id t ts e hlast htext
    rw [add_final_transcript, store_rejects_eq _ _ _ ts _
      ((rejects_final_iff s meeting_id t).mpr (Or.inr ⟨e, hlast, htext⟩))]
  · intro s meeting_id t ts hrec hn
    have hr : ¬ storeRejects s meeting_id t false := by
      rw [rejects_final_iff, hrec]
      rintro (h | ⟨e, he, -⟩)
      · exact hn h
      · simp at he
    rw [add_final_transcript, store_accepts_eq _ _ _ ts _ hr]
  · intro s meeting_id now
    rcases h : s._buffers meeting_id with _ | b
    · simp [get_recent_entries, h, recentList, _prune]
    · simp [get_recent_entries, h, recentList, setBuf_buffers]

/-- Witness for C2 amended: with "hi." stored at t=0 as the last recent
entry, a final "hi" at t=5 is rejected; from an empty recent view a final
"hi" at t=5 is accepted. -/
theorem C2_amended_witness :
    ((recentList (add_final_transcript init_state "m" "hi".toList 0).1 "m").getLast?
      = some ⟨"hi.".toList, 0⟩ ∧
     (⟨"hi.".toList, 0⟩ : TranscriptEntry).text = _normalize_text "hi".toList ∧
     (add_final_transcript (add_final_transcript init_state "m" "hi".toList 0).1
       "m" "hi".toList 5).2 = none) ∧
    (recentList init_state "m" = [] ∧ _normalize_text "hi".toList ≠ [] ∧
     (add_final_transcript init_state "m" "hi".toList 5).2
       = some ⟨_normalize_text "hi".toList, 5⟩) :=
  ⟨⟨by decide, by decide,
    C2_amended.1 (add_final_transcript init_state "m" "hi".toList 0).1
      "m" "hi".toList 5 ⟨"hi.".toList, 0⟩ (by decide) (by decide)⟩,
   ⟨by decide, by decide,
    C2_amended.2.1 init_state "m" "hi".toList 5 (by decide) (by decide)⟩⟩

/-- The first list is a suffix of the second (same relative order). -/
def SuffixOf (l big : List TranscriptEntry) : Prop := ∃ w, big = w ++ l

lemma suffixOf_refl (l : List TranscriptEntry) : SuffixOf l l := ⟨[], rfl⟩

lemma suffixOf_trans (a b c : List TranscriptEntry) (h1 : SuffixOf a b)
    (h2 : SuffixOf b c) : SuffixOf a c := by
  rcases h1 with ⟨w1, hw1⟩
  rcases h2 with ⟨w2, hw2⟩
  exact ⟨w2 ++ w1, by rw [hw2, hw1, List.append_assoc]⟩

lemma suffixOf_append (l big : List TranscriptEntry) (e : TranscriptEntry)
    (h : SuffixOf l big) : SuffixOf (l ++ [e]) (big ++ [e]) := by
  rcases h with ⟨w, hw⟩
  exact ⟨w, by rw [hw, List.append_assoc]⟩

lemma prune_suffix (l : List TranscriptEntry) (t : Int) : SuffixOf (_prune l t) l := by
  induction l with
  | nil => exact ⟨[], rfl⟩
  | cons a rest ih =>
    by_cases h : a.timestamp < t - BUFFER_WINDOW_MS
    · rcases ih with ⟨w, hw⟩
      exact ⟨a :: w, by rw [prune_cons, if_pos h, List.cons_append, ← hw]⟩
    · exact ⟨[], by rw [prune_cons, if_neg h, List.nil_append]⟩

lemma recentList_congr (s s2 : ServiceState) (meeting_id : String)
    (h : s2._buffers meeting_id = s._buffers meeting_id) :
    recentList s2 meeting_id = recentList s meeting_id := by
  unfold recentList
  rw [h]

lemma clear_buffers_ne (s : ServiceState) (A j : String) (hj : j ≠ A) :
    (clear_meeting s A)._buffers j = s._buffers j := by
  simp [clear_meeting, hj]

lemma init_buffers_ne (s : ServiceState) (A j : String) (hj : j ≠ A) :
    (init_meeting s A)._buffers j = s._buffers j := by
  rcases h : s._buffers A with _ | b
  · simp [init_meeting, h, setBuf_buffers, hj]
  · simp [init_meeting, h]

lemma pyBuf_pyS1 (s : ServiceState) (meeting_id : String) :
    pyBuf (pyS1 s meeting_id) meeting_id = pyBuf s meeting_id := by
  rw [pyBuf, pyS1_buffers]
  simp

lemma store_reject_views (s : ServiceState) (meeting_id : String) (t : List Char)
    (ts : Int) (dup : Bool) (h : storeRejects s meeting_id t dup) :
    recentList (_store_transcript s meeting_id t ts dup).1 meeting_id
      = recentList s meeting_id ∧
    get_full_entries (_store_transcript s meeting_id t ts dup).1 meeting_id
      = get_full_entries s meeting_id := by
  rw [store_rejects_eq _ _ _ ts _ h]
  constructor
  · rw [recentList_pyBuf, recentList_pyBuf, pyBuf_pyS1]
  · rw [get_full_pyBuf, get_full_pyBuf, pyBuf_pyS1]

lemma recent_preserves_full (s : ServiceState) (A : String) (now : Int)
    (meeting_id : String) :
    get_full_entries ((get_recent_entries s A now).1) meeting_id
      = get_full_entries s meeting_id := by
  by_cases hj : meeting_id = A
  · subst hj
    rcases h : s._buffers meeting_id with _ | b
    · simp [get_recent_entries, h]
    · simp [get_recent_entries, h, get_full_entries, setBuf_buffers]
  · exact get_full_congr _ _ meeting_id (recent_state_buffers s A now meeting_id hj)

/-- The per-meeting invariant: the stored recent deque is a suffix of the
stored history. -/
def RecentInFull (s : ServiceState) : Prop :=
  ∀ meeting_id, SuffixOf (recentList s meeting_id) (get_full_entries s meeting_id)

lemma store_preserves_inv (s : ServiceState) (A : String) (t : List Char) (ts : Int)
    (dup : Bool) (h : RecentInFull s) :
    RecentInFull (_store_transcript s A t ts dup).1 := by
  intro meeting_id
  by_cases hj : meeting_id = A
  · subst hj
    by_cases hr : storeRejects s meeting_id t dup
    · rw [(store_reject_views s meeting_id t ts dup hr).1,
          (store_reject_views s meeting_id t ts dup hr).2]
      exact h meeting_id
    · have hsome : (_store_transcript s meeting_id t ts dup).2
          = some ⟨_normalize_text t, ts⟩ := by
        rw [store_accepts_eq _ _ _ ts _ hr]
      have hv := store_accept_views s meeting_id t ts dup _ hsome
      rw [hv.1, hv.2.1]
      exact suffixOf_append _ _ _
        (suffixOf_trans _ _ _ (prune_suffix (recentList s meeting_id) ts) (h meeting_id))
  · have hb := store_buffers_ne s A t ts dup meeting_id hj
    rw [recentList_congr _ _ meeting_id hb, get_full_congr _ _ meeting_id hb]
    exact h meeting_id

lemma step_preserves_inv (s : ServiceState) (op : Op) (h : RecentInFull s) :
    RecentInFull (step s op) := by
  cases op with
  | addF A t ts => exact store_preserves_inv s A t ts false h
  | addP A t ts => exact store_preserves_inv s A t ts true h
  | clearM A =>
    intro meeting_id
    by_cases hj : meeting_id = A
    · subst hj
      have hc : (clear_meeting s meeting_id)._buffers meeting_id = none := by
        simp [clear_meeting]
      rw [step]
      unfold recentList get_full_entries
      rw [hc]
      exact suffixOf_refl []
    · have hb := clear_buffers_ne s A meeting_id hj
      rw [step, recentList_congr _ _ meeting_id hb, get_full_congr _ _ meeting_id hb]
      exact h meeting_id
  | initM A =>
    intro meeting_id
    by_cases hj : meeting_id = A
    · subst hj
      rcases hb : s._buffers meeting_id with _ | b
      · rw [step]
        unfold init_meeting
        rw [hb]
        unfold recentList get_full_entries
        rw [setBuf_buffers]
        simp
        exact suffixOf_refl []
      · rw [step]
        unfold init_meeting
        rw [hb]
        exact h meeting_id
    · have hb := init_buffers_ne s A meeting_id hj
      rw [step, recentList_congr _ _ meeting_id hb, get_full_congr _ _ meeting_id hb]
      exact h meeting_id
  | recentM A now =>
    intro meeting_id
    by_cases hj : meeting_id = A
    · subst hj
      rcases hb : s._buffers meeting_id with _ | b
      · rw [step]
        unfold get_recent_entries
        rw [hb]
        exact h meeting_id
      · rw [step]
        unfold get_recent_entries
        rw [hb]
        have hrec : recentList (setBuf s meeting_id
            (some ⟨_prune b.entries now, b.full_entries⟩)) meeting_id
            = _prune b.entries now := by
          unfold recentList
          rw [setBuf_buffers]
          simp
        have hful : get_full_entries (setBuf s meeting_id
            (some ⟨_prune b.entries now, b.full_entries⟩)) meeting_id
            = b.full_entries := by
          unfold get_full_entries
          rw [setBuf_buffers]
          simp
        rw [hrec, hful]
        have h0 := h meeting_id
        unfold recentList get_full_entries at h0
        rw [hb] at h0
        exact suffixOf_trans _ _ _ (prune_suffix b.entries now) h0
    · have hb := recent_state_buffers s A now meeting_id hj
      rw [step, recentList_congr _ _ meeting_id hb, get_full_congr _ _ meeting_id hb]
      exact h meeting_id
  | fullM A => exact h

lemma runFrom_preserves_inv (ops : List Op) :
    ∀ s : ServiceState, RecentInFull s → RecentInFull (runFrom s ops) := by
  induction ops with
  | nil => exact fun s h => h
  | cons op rest ih => exact fun s h => ih (step s op) (step_preserves_inv s op h)

lemma store_full_extends (s : ServiceState) (A : String) (t : List Char) (ts : Int)
    (dup : Bool) (meeting_id : String) :
    ∃ added, get_full_entries (_store_transcript s A t ts dup).1 meeting_id
      = get_full_entries s meeting_id ++ added := by
  by_cases hj : meeting_id = A
  · subst hj
    by_cases hr : storeRejects s meeting_id t dup
    · exact ⟨[], by rw [(store_reject_views s meeting_id t ts dup hr).2, List.append_nil]⟩
    · have hsome : (_store_transcript s meeting_id t ts dup).2
          = some ⟨_normalize_text t, ts⟩ := by
        rw [store_accepts_eq _ _ _ ts _ hr]
      exact ⟨[⟨_normalize_text t, ts⟩],
        (store_accept_views s meeting_id t ts dup _ hsome).2.1⟩
  · exact ⟨[], by
      rw [get_full_congr _ _ meeting_id (store_buffers_ne s A t ts dup meeting_id hj),
        List.append_nil]⟩

/-- C7: the history view is append-only: every operation other than a
clear of the same meeting extends the history on the right; whatever an
ingestion appends to the recent view it also appends to the history; and
along every operation sequence from the fresh service the recent view is
a suffix of the history view (same entries, same relative order,
including entries later evicted from recent). -/
theorem C7_history_append_only :
    (∀ (s : ServiceState) (op : Op) (meeting_id : String), op ≠ Op.clearM meeting_id →
      ∃ added, get_full_entries (step s op) meeting_id
        = get_full_entries s meeting_id ++ added) ∧
    (∀ (s : ServiceState) (meeting_id : String) (t : List Char) (ts : Int) (dup : Bool),
      match (_store_transcript s meeting_id t ts dup).2 with
      | some e =>
          get_full_entries (_store_transcript s meeting_id t ts dup).1 meeting_id
            = get_full_entries s meeting_id ++ [e] ∧
          recentList (_store_transcript s meeting_id t ts dup).1 meeting_id
            = _prune (recentList s meeting_id) ts ++ [e]
      | none =>
          get_full_entries (_store_transcript s meeting_id t ts dup).1 meeting_id
            = get_full_entries s meeting_id ∧
          recentList (_store_transcript s meeting_id t ts dup).1 meeting_id
            = recentList s meeting_id) ∧
    (∀ (ops : List Op) (meeting_id : String),
      SuffixOf (recentList (runOps ops) meeting_id)
        (get_full_entries (runOps ops) meeting_id)) := by
  refine ⟨?_, ?_, ?_⟩
  · intro s op meeting_id hop
    cases op with
    | addF A t ts => exact store_full_extends s A t ts false meeting_id
    | addP A t ts => exact store_full_extends s A t ts true meeting_id
    | clearM A =>
      have hj : meeting_id ≠ A := fun h => hop (by rw [h])
      exact ⟨[], by
        rw [step, get_full_congr _ _ meeting_id (clear_buffers_ne s A meeting_id hj),
          List.append_nil]⟩
    | initM A =>
      by_cases hj : meeting_id = A
      · subst hj
        rcases hb : s._buffers meeting_id with _ | b
        · refine ⟨[], ?_⟩
          rw [step]
          unfold init_meeting
          rw [hb]
          unfold get_full_entries
          rw [setBuf_buffers, hb]
          simp
        · refine ⟨[], ?_⟩
          rw [step]
          unfold init_meeting
          rw [hb, List.append_nil]
      · exact ⟨[], by
          rw [step, get_full_congr _ _ meeting_id (init_buffers_ne s A meeting_id hj),
            List.append_nil]⟩
    | recentM A now =>
      exact ⟨[], by rw [step, recent_preserves_full s A now meeting_id, List.append_nil]⟩
    | fullM A => exact ⟨[], by rw [step, List.append_nil]⟩
  · intro s meeting_id t ts dup
    by_cases hr : storeRejects s meeting_id t dup
    · have hnone : (_store_transcript s meeting_id t ts dup).2 = none := by
        rw [store_rejects_eq _ _ _ ts _ hr]
      rw [hnone]
      exact ⟨(store_reject_views s meeting_id t ts dup hr).2,
             (store_reject_views s meeting_id t ts dup hr).1⟩
    · have hsome : (_store_transcript s meeting_id t ts dup).2
          = some ⟨_normalize_text t, ts⟩ := by
        rw [store_accepts_eq _ _ _ ts _ hr]
      rw [hsome]
      have hv := store_accept_views s meeting_id t ts dup _ hsome
      exact ⟨hv.2.1, hv.1⟩
  · intro ops meeting_id
    exact runFrom_preserves_inv ops init_state (fun j => suffixOf_refl []) meeting_id

/-- Witness for C7: a final ingestion into "m" extends the history of "m"
on the right. -/
theorem C7_history_append_only_witness :
    Op.addF "m" "hi".toList 0 ≠ Op.clearM "m" ∧
    ∃ added, get_full_entries (step init_state (Op.addF "m" "hi".toList 0)) "m"
      = get_full_entries init_state "m" ++ added :=
  ⟨by decide,
   C7_history_append_only.1 init_state (Op.addF "m" "hi".toList 0) "m" (by decide)⟩

/-!
Reference-semantics model for C1.  In Python, `TranscriptEntry` is a
mutable dataclass and `list(buffer.entries)` is a shallow copy: the list
object is fresh but the entry objects are shared by reference.  To settle
claims about callers mutating returned sequences, the heap of entry
objects is made explicit: buffers hold references (indices into the
heap), retrieval returns a fresh list of the same references, and a
caller-side `entry.text = ...` assignment is a heap update. -/

/-- A `TranscriptBuffer` under reference semantics: both sequences hold
references to heap-allocated `TranscriptEntry` objects. -/
structure RBuffer where
  entries : List Nat
  full_entries : List Nat
deriving DecidableEq, Repr

/-- A service state under reference semantics: the heap of entry objects
plus the `_buffers` dictionary. -/
structure RState where
  heap : List TranscriptEntry
  _buffers : String → Option RBuffer

/-- The freshly constructed service (no objects allocated). -/
def rinit : RState := ⟨[], fun _ => none⟩

/-- Dereferences an entry object (the dummy default is never reached for
references handed out by the model). -/
def derefEntry (s : RState) (r : Nat) : TranscriptEntry := s.heap.getD r ⟨[], 0⟩

/-- `self._buffers[meeting_id] = b` under reference semantics. -/
def rsetBuf (s : RState) (meeting_id : String) (b : Option RBuffer) : RState :=
  ⟨s.heap, fun j => if j = meeting_id then b else s._buffers j⟩

/-- `_prune` under reference semantics: timestamps are read through the
references. -/
def rpruneRefs (s : RState) (l : List Nat) (current_ts : Int) : List Nat :=
  match l with
  | [] => []
  | r :: rest =>
    if (derefEntry s r).timestamp < current_ts - BUFFER_WINDOW_MS then
      rpruneRefs s rest current_ts
    else r :: rest

/-- `_store_transcript` under reference semantics: the accepted entry is
allocated once on the heap and the same reference is appended to both
sequences. -/
def rstore_transcript (s : RState) (meeting_id : String) (text : List Char)
    (timestamp : Int) (allow_duplicates : Bool) : RState × Option Nat :=
  let buffer : RBuffer := (s._buffers meeting_id).getD ⟨[], []⟩
  let s1 : RState :=
    match s._buffers meeting_id with
    | some _ => s
    | none => rsetBuf s meeting_id (some buffer)
  let normalized := _normalize_text text
  if normalized = [] then
    (s1, none)
  else if !allow_duplicates && buffer.entries.getLast?.any
      (fun r => decide ((derefEntry s r).text = normalized)) then
    (s1, none)
  else
    let r := s1.heap.length
    let s2 : RState := ⟨s1.heap ++ [⟨normalized, timestamp⟩], s1._buffers⟩
    let newBuffer : RBuffer :=
      ⟨rpruneRefs s buffer.entries timestamp ++ [r], buffer.full_entries ++ [r]⟩
    (rsetBuf s2 meeting_id (some newBuffer), some r)

/-- `get_recent_entries` under reference semantics: stores the pruned
reference list back and returns a fresh copy of it (`list(...)` copies
the list of references, not the entry objects). -/
def rget_recent (s : RState) (meeting_id : String) (now : Int) : RState × List Nat :=
  match s._buffers meeting_id with
  | none => (s, [])
  | some b =>
    let pruned := rpruneRefs s b.entries now
    (rsetBuf s meeting_id (some ⟨pruned, b.full_entries⟩), pruned)

/-- `get_full_entries` under reference semantics: a fresh copy of the
history list of references. -/
def rget_full (s : RState) (meeting_id : String) : List Nat :=
  match s._buffers meeting_id with
  | none => []
  | some b => b.full_entries

/-- The texts a caller observes when reading the entries of the history
view. -/
def rget_full_texts (s : RState) (meeting_id : String) : List (List Char) :=
  (rget_full s meeting_id).map (fun r => (derefEntry s r).text)

/-- A caller-side mutation `entry.text = new_text` on an entry object it
received: a heap update visible through every reference to that object. -/
def set_entry_text (s : RState) (r : Nat) (new_text : List Char) : RState :=
  ⟨s.heap.set r ⟨new_text, (derefEntry s r).timestamp⟩, s._buffers⟩

/-- C1 counterexample: after storing "hi" in meeting "m", the sequence
returned by `get_recent_entries` contains (a reference to) the stored
entry object; a caller mutating that entry's text changes the result of a
subsequent `get_full_entries` retrieval, because the dataclass is mutable
and `list(...)` only shallow-copies, so the claim that mutating the
entries contained in a returned sequence cannot alter buffer state is
false. -/
theorem C1_counterexample :
    (rget_recent (rstore_transcript rinit "m" "hi".toList 0 false).1 "m" 0).2 = [0] ∧
    rget_full_texts (rstore_transcript rinit "m" "hi".toList 0 false).1 "m"
      = ["hi.".toList] ∧
    rget_full_texts (set_entry_text
      (rget_recent (rstore_transcript rinit "m" "hi".toList 0 false).1 "m" 0).1
      0 "changed".toList) "m" = ["changed".toList] ∧
    ("changed".toList : List Char) ≠ "hi.".toList := by decide

/-- C1 amended: the sequences themselves are returned by copy (retrieval
allocates nothing into and mutates nothing of the heap of entry objects,
and leaves the history references unchanged), but entry objects are
shared by reference: a caller-side mutation of an entry reachable from
the history view changes the result of subsequent retrievals while the
buffers' reference lists stay untouched. -/
theorem C1_shallow_copy (s : RState) (meeting_id : String) (now : Int)
    (r : Nat) (tx : List Char)
    (hr : r ∈ rget_full s meeting_id) (hlen : r < s.heap.length)
    (htx : (derefEntry s r).text ≠ tx) :
    ((rget_recent s meeting_id now).1).heap = s.heap ∧
    rget_full ((rget_recent s meeting_id now).1) meeting_id = rget_full s meeting_id ∧
    (set_entry_text s r tx)._buffers = s._buffers ∧
    rget_full_texts (set_entry_text s r tx) meeting_id ≠ rget_full_texts s meeting_id := by
  refine ⟨?_, ?_, rfl, ?_⟩
  · rcases h : s._buffers meeting_id with _ | b
    · rw [rget_recent, h]
    · rw [rget_recent, h]
      rfl
  · rcases h : s._buffers meeting_id with _ | b
    · rw [rget_recent, h]
    · rw [rget_recent, h]
      show rget_full (rsetBuf s meeting_id _) meeting_id = _
      simp [rget_full, rsetBuf, h]
  · intro heq
    have hfull : rget_full (set_entry_text s r tx) meeting_id
        = rget_full s meeting_id := rfl
    rw [rget_full_texts, rget_full_texts, hfull] at heq
    have hpt := List.map_eq_map_iff.mp heq r hr
    have hset : derefEntry (set_entry_text s r tx) r
        = ⟨tx, (derefEntry s r).timestamp⟩ := by
      rw [derefEntry, set_entry_text]
      have h7 : (s.heap.set r ⟨tx, (derefEntry s r).timestamp⟩)[r]?
          = some ⟨tx, (derefEntry s r).timestamp⟩ :=
        List.getElem?_set_eq_of_lt _ hlen
      rw [List.getD_eq_getElem?_getD, h7]
      rfl
    rw [hset] at hpt
    exact htx hpt.symm

/-- Witness for C1 amended: mutating the text of the entry stored for
"m" flips the observed history text from "hi." to "x". -/
theorem C1_shallow_copy_witness :
    (0 ∈ rget_full (rstore_transcript rinit "m" "hi".toList 0 false).1 "m" ∧
     0 < ((rstore_transcript rinit "m" "hi".toList 0 false).1).heap.length ∧
     (derefEntry (rstore_transcript rinit "m" "hi".toList 0 false).1 0).text
       ≠ "x".toList) ∧
    (((rget_recent (rstore_transcript rinit "m" "hi".toList 0 false).1 "m" 7).1).heap
       = ((rstore_transcript rinit "m" "hi".toList 0 false).1).heap ∧
     rget_full ((rget_recent (rstore_transcript rinit "m" "hi".toList 0 false).1 "m" 7).1) "m"
       = rget_full (rstore_transcript rinit "m" "hi".toList 0 false).1 "m" ∧
     (set_entry_text (rstore_transcript rinit "m" "hi".toList 0 false).1 0 "x".toList)._buffers
       = ((rstore_transcript rinit "m" "hi".toList 0 false).1)._buffers ∧
     rget_full_texts (set_entry_text (rstore_transcript rinit "m" "hi".toList 0 false).1
       0 "x".toList) "m"
       ≠ rget_full_texts (rstore_transcript rinit "m" "hi".toList 0 false).1 "m") :=
  ⟨⟨by decide, by decide, by decide⟩,
   C1_shallow_copy (rstore_transcript rinit "m" "hi".toList 0 false).1 "m" 7
     0 "x".toList (by decide) (by decide) (by decide)⟩
